import Mathlib

/-!
Verification of the chunking / context-window-retrieval core of
`all_rag_techniques/context_enrichment_window_around_chunk.ipynb`.

The embedding models:
- `Document` — a langchain `Document` restricted to the fields the core
  reads: `page_content`, the metadata key `"index"` (absent ↦ `none`),
  and the metadata key `"text"` (the full source text).
- `split_text_to_chunks_with_indices` — the chunker's `while` loop,
  embedded with an explicit fuel parameter (`none` = fuel exhausted,
  i.e. the loop has not terminated within `fuel` iterations).
- `get_chunk_by_index` — the linear scan over all stored documents
  (the store is modelled as the list of documents the backing
  vectorstore would return).
- `retrieve_with_context_overlap` — the per-hit neighbor collection,
  the stable sort by metadata index (Python's `list.sort` is stable;
  `sortByIndex` is a stable insertion sort, which produces the same
  output), and the fixed-trim concatenation.
Python string slicing `s[a:b]` (with possibly negative `Int` bounds)
is modelled by `pySlice`.
-/

structure Document where
  page_content : List Char
  index : Option Int
  full_text : List Char
deriving Repr, DecidableEq

/-- Clip a Python slice bound to `[0, n]`: negative bounds count from the
end, then everything is clamped into range. -/
def pyBound (n : Nat) (i : Int) : Nat :=
  min n (if i < 0 then ((n : Int) + i).toNat else i.toNat)

/-- Python `s[a:b]`. -/
def pySlice (s : List Char) (a b : Int) : List Char :=
  (s.take (pyBound s.length b)).drop (pyBound s.length a)

/-- Python `s[a:]`. -/
def pySliceFrom (s : List Char) (a : Int) : List Char :=
  pySlice s a (s.length : Int)

/-- The body of `split_text_to_chunks_with_indices`:
`while start < len(text): chunk = text[start:start+chunk_size];
chunks.append(Document(chunk, index=len(chunks), text=text));
start += chunk_size - chunk_overlap`.
`fuel` bounds the number of iterations; `none` means the loop did not
finish within `fuel` iterations. -/
def splitGo (text : List Char) (chunk_size chunk_overlap : Int) :
    Nat → Int → List Document → Option (List Document)
  | 0, _, _ => none
  | fuel + 1, start, chunks =>
    if start < (text.length : Int) then
      splitGo text chunk_size chunk_overlap fuel
        (start + (chunk_size - chunk_overlap))
        (chunks ++ [⟨pySlice text start (start + chunk_size),
                     some (chunks.length : Int), text⟩])
    else
      some chunks

def split_text_to_chunks_with_indices (fuel : Nat) (text : List Char)
    (chunk_size chunk_overlap : Int) : Option (List Document) :=
  splitGo text chunk_size chunk_overlap fuel 0 []

/-- The chunker's `while` loop terminates on this input. -/
def splitTerminates (text : List Char) (chunk_size chunk_overlap : Int) : Prop :=
  ∃ fuel, (split_text_to_chunks_with_indices fuel text chunk_size chunk_overlap).isSome = true

/-- The chunker's output on terminating runs (fuel `len + 1` suffices for
every valid parameter pair). -/
def splitChunks (text : List Char) (chunk_size chunk_overlap : Int) : List Document :=
  (split_text_to_chunks_with_indices (text.length + 1) text chunk_size chunk_overlap).getD []

/-- `ceil(len / step)` for `step ≥ 1` (`0` when `len = 0`): the number of
loop iterations, hence of emitted chunks. -/
def numChunks (len step : Nat) : Nat :=
  if len = 0 then 0 else (len - 1) / step + 1

/-- Closed form of the chunk emitted at iteration `m`. -/
def chunkDoc (text : List Char) (cs step m : Nat) : Document :=
  ⟨(text.drop (m * step)).take cs, some (m : Int), text⟩

/-- Closed form of the full chunk list for valid parameters. -/
def canonicalChunks (text : List Char) (cs step : Nat) : List Document :=
  (List.range (numChunks text.length step)).map (chunkDoc text cs step)

/-- `get_chunk_by_index`: retrieve every stored document and return the
first whose metadata `"index"` equals the target, else `None`. -/
def get_chunk_by_index (store : List Document) (target_index : Int) : Option Document :=
  store.find? (fun d => d.index == some target_index)

/-- The neighbor-collection loop of `retrieve_with_context_overlap`:
`for i in range(1, num_neighbors + 1): prev = get_chunk_by_index(idx - i)`
(prepended if found); `next = get_chunk_by_index(idx + i)` (appended if
found). -/
def collectNeighbors (store : List Document) (idx : Int) (hit : Document)
    (num_neighbors : Nat) : List Document :=
  (List.range num_neighbors).foldl
    (fun (acc : List Document) (j : Nat) =>
      let i : Int := (j : Int) + 1
      let acc1 := match get_chunk_by_index store (idx - i) with
        | some p => p :: acc
        | none => acc
      match get_chunk_by_index store (idx + i) with
      | some q => acc1 ++ [q]
      | none => acc1)
    [hit]

/-- The sort key `x.metadata.get('index', 0)`. -/
def keyOf (d : Document) : Int := d.index.getD 0

/-- Stable insertion into a key-sorted list (new element goes after
existing elements with an equal key). -/
def insertByIdx (d : Document) : List Document → List Document
  | [] => [d]
  | e :: es => if keyOf d ≤ keyOf e then d :: e :: es else e :: insertByIdx d es

/-- `neighbor_chunks.sort(key=lambda x: x.metadata.get('index', 0))` —
Python's stable sort, modelled as stable insertion sort. -/
def sortByIndex (l : List Document) : List Document :=
  l.foldr insertByIdx []

/-- The concatenation loop: result starts as the first chunk's text; every
later chunk contributes `current[chunk_size - chunk_overlap:]`. The trim
amount is a parameter so the same function states the spec's
overlap-dropping merge rule. -/
def concat_with_trim (trim : Int) : List (List Char) → List Char
  | [] => []
  | c :: rest => rest.foldl (fun acc cur => acc ++ pySliceFrom cur trim) c

/-- One iteration of `retrieve_with_context_overlap`'s outer loop, for a hit
whose metadata index is `idx`: collect neighbors, sort by index, merge. -/
def assembleWindow (store : List Document) (hit : Document) (idx : Int)
    (num_neighbors : Nat) (chunk_size chunk_overlap : Int) : List Char :=
  concat_with_trim (chunk_size - chunk_overlap)
    ((sortByIndex (collectNeighbors store idx hit num_neighbors)).map
      (fun d => d.page_content))

/-- `retrieve_with_context_overlap`, with the external similarity search
abstracted: `hits` is what `retriever.get_relevant_documents(query)`
returned. Hits without a metadata index are skipped (`continue`). -/
def retrieve_with_context_overlap (store hits : List Document)
    (num_neighbors : Nat) (chunk_size chunk_overlap : Int) : List (List Char) :=
  hits.filterMap (fun c =>
    match c.index with
    | none => none
    | some idx => some (assembleWindow store c idx num_neighbors chunk_size chunk_overlap))

/-! ### Basic slice lemmas -/

theorem pyBound_natCast (n a : Nat) : pyBound n (a : Int) = min n a := by
  rw [pyBound, if_neg (Int.not_lt.mpr (Int.natCast_nonneg a)), Int.toNat_natCast]

theorem take_min_length (s : List Char) (b : Nat) :
    s.take (min s.length b) = s.take b := by
  rcases le_total s.length b with h | h
  · rw [min_eq_left h, List.take_length, List.take_of_length_le h]
  · rw [min_eq_right h]

theorem drop_min_of_length_le (l : List Char) (n a : Nat) (h : l.length ≤ n) :
    l.drop (min n a) = l.drop a := by
  rcases le_total n a with h2 | h2
  · rw [min_eq_left h2, List.drop_eq_nil_of_le h,
      List.drop_eq_nil_of_le (le_trans h h2)]
  · rw [min_eq_right h2]

theorem pySlice_natCast (s : List Char) (a b : Nat) :
    pySlice s (a : Int) (b : Int) = (s.drop a).take (b - a) := by
  rw [pySlice, pyBound_natCast, pyBound_natCast, take_min_length,
    drop_min_of_length_le _ _ _ (by simp), List.drop_take]

theorem pySliceFrom_natCast (s : List Char) (a : Nat) :
    pySliceFrom s (a : Int) = s.drop a := by
  rw [pySliceFrom, pySlice_natCast]
  exact List.take_of_length_le (by simp)

/-! ### `numChunks` lemmas -/

theorem numChunks_zero (step : Nat) : numChunks 0 step = 0 := by
  simp [numChunks]

theorem numChunks_pos (step r : Nat) (h : 1 ≤ r) :
    numChunks r step = (r - 1) / step + 1 := by
  rw [numChunks, if_neg (by omega)]

theorem numChunks_succ (step r : Nat) (hstep : 1 ≤ step) (h : 1 ≤ r) :
    numChunks r step = numChunks (r - step) step + 1 := by
  rcases le_or_lt r step with hr | hr
  · rw [numChunks_pos step r h, Nat.div_eq_of_lt (by omega), numChunks, if_pos (by omega)]
  · rw [numChunks_pos step r h, numChunks_pos step (r - step) (by omega)]
    have e : r - 1 = (r - step - 1) + step := by omega
    rw [e, Nat.add_div_right _ hstep]

theorem numChunks_le (step r : Nat) (_hstep : 1 ≤ step) : numChunks r step ≤ r := by
  rcases Nat.eq_zero_or_pos r with h | h
  · simp [h, numChunks_zero]
  · rw [numChunks_pos step r h]
    have := Nat.div_le_self (r - 1) step
    omega

theorem numChunks_cover (step r : Nat) (hstep : 1 ≤ step) (h : 1 ≤ r) :
    r ≤ (numChunks r step - 1) * step + step := by
  rw [numChunks_pos step r h, Nat.add_sub_cancel]
  have hd := Nat.div_add_mod (r - 1) step
  have hm := Nat.mod_lt (r - 1) (y := step) hstep
  have hc : (r - 1) / step * step = step * ((r - 1) / step) := Nat.mul_comm _ _
  omega

/-! ### Characterization of the chunker on valid parameters -/

theorem splitGo_spec (text : List Char) (cs co : Nat) (hco : co < cs) :
    ∀ (fuel j : Nat) (acc : List Document),
      numChunks (text.length - j * (cs - co)) (cs - co) < fuel →
      acc.length = j →
      splitGo text (cs : Int) (co : Int) fuel ((j * (cs - co) : Nat) : Int) acc =
        some (acc ++ (List.range' j (numChunks (text.length - j * (cs - co)) (cs - co))).map
          (chunkDoc text cs (cs - co))) := by
  intro fuel
  induction fuel with
  | zero => intro j acc hfuel hacc; omega
  | succ f ih =>
    intro j acc hfuel hacc
    by_cases hlt : j * (cs - co) < text.length
    · have hlt2 : ((j * (cs - co) : Nat) : Int) < (text.length : Int) := by
        exact_mod_cast hlt
      rw [splitGo, if_pos hlt2]
      have estep : ((cs : Int) - (co : Int)) = ((cs - co : Nat) : Int) :=
        (Int.ofNat_sub (le_of_lt hco)).symm
      have estart : ((j * (cs - co) : Nat) : Int) + ((cs : Int) - (co : Int))
          = (((j + 1) * (cs - co) : Nat) : Int) := by
        rw [estep]
        push_cast
        ring
      have echunk : pySlice text ((j * (cs - co) : Nat) : Int)
          (((j * (cs - co) : Nat) : Int) + (cs : Int))
          = (text.drop (j * (cs - co))).take cs := by
        have : ((j * (cs - co) : Nat) : Int) + (cs : Int)
            = ((j * (cs - co) + cs : Nat) : Int) := by push_cast; ring
        rw [this, pySlice_natCast, Nat.add_sub_cancel_left]
      have hmul : (j + 1) * (cs - co) = j * (cs - co) + (cs - co) :=
        Nat.succ_mul j (cs - co)
      have hcnt : numChunks (text.length - j * (cs - co)) (cs - co)
          = numChunks (text.length - (j + 1) * (cs - co)) (cs - co) + 1 := by
        have h1 : 1 ≤ text.length - j * (cs - co) := by omega
        have h2 := numChunks_succ (cs - co) (text.length - j * (cs - co)) (by omega) h1
        have e : text.length - j * (cs - co) - (cs - co)
            = text.length - (j + 1) * (cs - co) := by omega
        rw [e] at h2
        exact h2
      rw [estart, echunk]
      have hrec := ih (j + 1) (acc ++ [⟨(text.drop (j * (cs - co))).take cs,
        some ((acc.length : Nat) : Int), text⟩]) (by omega) (by simp [hacc])
      rw [hrec, hcnt, List.range'_succ]
      simp only [List.map_cons, List.append_assoc, List.singleton_append]
      rw [hacc]
      rfl
    · have hge : (text.length : Int) ≤ ((j * (cs - co) : Nat) : Int) := by
        exact_mod_cast Nat.le_of_not_lt hlt
      rw [splitGo, if_neg (by omega)]
      have e0 : text.length - j * (cs - co) = 0 := by omega
      rw [e0, numChunks_zero]
      simp

theorem split_eq_canonical (text : List Char) (cs co : Nat) (hco : co < cs) :
    split_text_to_chunks_with_indices (text.length + 1) text (cs : Int) (co : Int)
      = some (canonicalChunks text cs (cs - co)) := by
  have h := splitGo_spec text cs co hco (text.length + 1) 0 []
    (by
      have h1 := numChunks_le (cs - co) (text.length - 0 * (cs - co)) (by omega)
      omega)
    rfl
  rw [split_text_to_chunks_with_indices]
  have e : ((0 * (cs - co) : Nat) : Int) = (0 : Int) := by norm_num
  rw [← e, h]
  rw [canonicalChunks, List.range_eq_range']
  simp

/-! ### The merge loop on consecutive chunks -/

theorem merge_aux (text : List Char) (step co cs : Nat) (hcs : cs = step + co) :
    ∀ (n a j : Nat), a ≤ j →
      List.foldl (fun acc m => acc ++ ((text.drop (m * step)).take cs).drop co)
        ((text.drop (a * step)).take ((j - a) * step + cs))
        (List.range' (j + 1) n)
      = (text.drop (a * step)).take ((j + n - a) * step + cs) := by
  intro n
  induction n with
  | zero => intro a j haj; rfl
  | succ n ih =>
    intro a j haj
    rw [List.range'_succ, List.foldl_cons]
    have hpiece : ((text.drop ((j + 1) * step)).take cs).drop co
        = ((text.drop (a * step)).drop ((j - a) * step + cs)).take step := by
      rw [List.drop_take, List.drop_drop, List.drop_drop]
      have e1 : (j + 1) * step + co = a * step + ((j - a) * step + cs) := by
        have h1 : a * step + (j - a) * step = j * step := by
          rw [← Nat.add_mul]
          congr 1
          omega
        have h2 : (j + 1) * step = j * step + step := Nat.succ_mul j step
        omega
      have e2 : cs - co = step := by omega
      rw [e1, e2]
    have hacc : (text.drop (a * step)).take ((j - a) * step + cs)
        ++ ((text.drop (a * step)).drop ((j - a) * step + cs)).take step
        = (text.drop (a * step)).take ((j + 1 - a) * step + cs) := by
      rw [← List.take_add]
      congr 1
      have h3 : (j + 1 - a) * step = (j - a) * step + step := by
        have e : j + 1 - a = (j - a) + 1 := by omega
        rw [e, Nat.succ_mul]
      omega
    rw [hpiece, hacc]
    have hrec := ih a (j + 1) (by omega)
    rw [hrec]
    have e : j + 1 + n - a = j + (n + 1) - a := by omega
    rw [e]

/-- Round-trip of the chunker under the overlap-dropping merge (trim
`chunkOverlap` characters from every chunk after the first). -/
theorem roundtrip_drop_overlap (text : List Char) (cs co : Nat) (hco : co < cs) :
    concat_with_trim (co : Int)
      ((canonicalChunks text cs (cs - co)).map (fun d => d.page_content)) = text := by
  rcases Nat.eq_zero_or_pos text.length with hlen | hlen
  · have : text = [] := List.length_eq_zero.mp hlen
    subst this
    rfl
  · have hstep : 1 ≤ cs - co := by omega
    obtain ⟨k, hK⟩ : ∃ k, numChunks text.length (cs - co) = k + 1 := by
      rw [numChunks_pos _ _ hlen]
      exact ⟨_, rfl⟩
    have hm := merge_aux text (cs - co) co cs (by omega) k 0 0 (le_refl 0)
    simp only [Nat.zero_mul, Nat.sub_self, Nat.sub_zero, Nat.zero_add,
      List.drop_zero] at hm
    rw [canonicalChunks, List.range_eq_range', hK, List.range'_succ, List.map_cons,
      List.map_cons, concat_with_trim, List.foldl_map, List.foldl_map]
    have hfun : (fun (acc : List Char) (m : Nat) =>
          acc ++ pySliceFrom (chunkDoc text cs (cs - co) m).page_content (co : Int))
        = fun acc m => acc ++ ((text.drop (m * (cs - co))).take cs).drop co := by
      funext acc m
      rw [chunkDoc, pySliceFrom_natCast]
    have hstart : (chunkDoc text cs (cs - co) 0).page_content = text.take cs := by
      simp [chunkDoc]
    rw [hfun, hstart, hm]
    apply List.take_of_length_le
    have hcover := numChunks_cover (cs - co) text.length hstep hlen
    rw [hK] at hcover
    simp only [Nat.add_sub_cancel] at hcover
    omega

/-! ### Termination behavior of the chunker loop -/

theorem splitGo_none_of_nonpos_step (text : List Char) (cs co : Int)
    (h : cs - co ≤ 0) (ht : text ≠ []) :
    ∀ (fuel : Nat) (start : Int) (acc : List Document), start ≤ 0 →
      splitGo text cs co fuel start acc = none := by
  intro fuel
  induction fuel with
  | zero => intro start acc hs; rfl
  | succ f ih =>
    intro start acc hs
    have hl : text.length ≠ 0 := by
      simpa [Ne, List.length_eq_zero] using ht
    have hlen : (0 : Int) < (text.length : Int) := by
      exact_mod_cast Nat.pos_of_ne_zero hl
    rw [splitGo, if_pos (by omega)]
    exact ih _ _ (by omega)

theorem split_terminates_of_valid (text : List Char) (cs co : Nat) (hco : co < cs) :
    splitTerminates text (cs : Int) (co : Int) :=
  ⟨text.length + 1, by rw [split_eq_canonical text cs co hco]; rfl⟩

theorem split_not_terminates (text : List Char) (cs co : Int)
    (h : cs - co ≤ 0) (ht : text ≠ []) : ¬ splitTerminates text cs co := by
  rintro ⟨fuel, hf⟩
  rw [split_text_to_chunks_with_indices,
    splitGo_none_of_nonpos_step text cs co h ht fuel 0 [] (le_refl 0)] at hf
  simp at hf

/-! ### Claim theorems: chunker -/

/-- C1 counterexample: with the valid parameters `chunkSize = 3`,
`chunkOverlap = 1` on the text `"abcde"`, merging all chunks by the §4.4
rule (drop the leading `chunkSize − chunkOverlap = 2` characters of every
chunk after the first) yields `"abce"`, not the original text. -/
theorem C1_counterexample :
    ¬ (concat_with_trim ((3 : Int) - (1 : Int))
        ((splitChunks ['a','b','c','d','e'] 3 1).map (fun d => d.page_content))
      = ['a','b','c','d','e']) := by decide

/-- C1 (amended): the §4.4 merge rule (trim `chunkSize − chunkOverlap`
characters) reconstructs the text exactly when `chunkSize = 2·chunkOverlap`,
for then the trimmed amount equals the actual overlap between consecutive
chunks. -/
theorem C1_roundtrip_step_trim (text : List Char) (cs co : Nat) (hpos : 0 < co)
    (h2 : cs = 2 * co) (chunks : List Document)
    (hs : split_text_to_chunks_with_indices (text.length + 1) text (cs : Int) (co : Int)
      = some chunks) :
    concat_with_trim ((cs : Int) - (co : Int))
      (chunks.map (fun d => d.page_content)) = text := by
  have hco : co < cs := by omega
  have e : ((cs : Int) - (co : Int)) = ((co : Nat) : Int) := by
    have e2 : cs - co = co := by omega
    rw [← Int.ofNat_sub (le_of_lt hco), e2]
  rw [e, split_eq_canonical text cs co hco] at *
  cases hs
  exact roundtrip_drop_overlap text cs co hco

/-- C1 witness: for `"abcd"` with `chunkSize = 2 = 2·chunkOverlap`, the §4.4
merge of all chunks reconstructs the text. -/
theorem C1_roundtrip_step_trim_witness :
    concat_with_trim (((2 : Nat) : Int) - ((1 : Nat) : Int))
      ((canonicalChunks ['a','b','c','d'] 2 1).map (fun d => d.page_content))
      = ['a','b','c','d'] :=
  C1_roundtrip_step_trim ['a','b','c','d'] 2 1 (by decide) (by decide)
    (canonicalChunks ['a','b','c','d'] 2 1) (by decide)

/-- C2: for every text and valid parameters, concatenating all chunks in
emission order while dropping, from every chunk after the first, its
leading `chunkOverlap` characters reconstructs the original text. -/
theorem C2_roundtrip_drop_overlap (text : List Char) (cs co : Nat) (hco : co < cs)
    (chunks : List Document)
    (hs : split_text_to_chunks_with_indices (text.length + 1) text (cs : Int) (co : Int)
      = some chunks) :
    concat_with_trim ((co : Nat) : Int)
      (chunks.map (fun d => d.page_content)) = text := by
  rw [split_eq_canonical text cs co hco] at hs
  cases hs
  exact roundtrip_drop_overlap text cs co hco

/-- C2 witness: for `"abcde"` with `chunkSize = 3`, `chunkOverlap = 1`,
dropping 1 leading character from every chunk after the first and
concatenating reconstructs the text. -/
theorem C2_roundtrip_drop_overlap_witness :
    concat_with_trim (((1 : Nat) : Int))
      ((canonicalChunks ['a','b','c','d','e'] 3 2).map (fun d => d.page_content))
      = ['a','b','c','d','e'] :=
  C2_roundtrip_drop_overlap ['a','b','c','d','e'] 3 1 (by decide)
    (canonicalChunks ['a','b','c','d','e'] 3 2) (by decide)

/-- C3 counterexample: with the invalid parameter `chunkSize = 0` and empty
text, the chunker terminates normally and returns the empty chunk list —
no error of any kind is raised (the source performs no parameter
validation and defines no `ConfigError`). -/
theorem C3_counterexample :
    split_text_to_chunks_with_indices 1 [] 0 0 = some [] := by decide

/-- C3 (amended): the chunker performs no parameter validation. Under valid
parameters (`0 < chunkSize`, `0 ≤ chunkOverlap < chunkSize`) it terminates
(and, being a plain loop, raises nothing); with a non-positive step
(`chunkSize − chunkOverlap ≤ 0`) and non-empty text it never terminates,
so no `ConfigError` is ever raised; with invalid parameters and empty text
it returns the empty chunk list. -/
theorem C3_no_validation (text : List Char) (cs co : Int) :
    ((0 < cs ∧ 0 ≤ co ∧ co < cs) → splitTerminates text cs co)
    ∧ ((cs - co ≤ 0 ∧ text ≠ []) → ¬ splitTerminates text cs co) := by
  constructor
  · rintro ⟨h1, h2, h3⟩
    have e1 : ((cs.toNat : Nat) : Int) = cs := Int.toNat_of_nonneg (by omega)
    have e2 : ((co.toNat : Nat) : Int) = co := Int.toNat_of_nonneg h2
    have hco : co.toNat < cs.toNat := by omega
    rw [← e1, ← e2]
    exact split_terminates_of_valid text cs.toNat co.toNat hco
  · rintro ⟨h1, h2⟩
    exact split_not_terminates text cs co h1 h2

/-- C3 witness: chunking `"a"` terminates with the valid pair `(2, 1)` and
never terminates with the invalid pair `(1, 1)`. -/
theorem C3_no_validation_witness :
    splitTerminates ['a'] 2 1 ∧ ¬ splitTerminates ['a'] 1 1 :=
  ⟨(C3_no_validation ['a'] 2 1).1 (by decide),
   (C3_no_validation ['a'] 1 1).2 (by decide)⟩

/-- C4 counterexample: both branches of the claimed count law fail.
For `"ab"` with `(chunkSize, chunkOverlap) = (2, 1)` we have
`len(T) = 2 ≤ chunkSize`, yet the chunker emits 2 chunks, not 1. For
`"abcde"` with `(4, 3)` we have `len(T) = 5 > chunkSize`, yet the chunker
emits 5 chunks while `ceil((5 − 3) / (4 − 3)) = 2`. -/
theorem C4_counterexample :
    ((splitChunks ['a','b'] 2 1).length = 2
      ∧ ¬ (splitChunks ['a','b'] 2 1).length = 1)
    ∧ ((splitChunks ['a','b','c','d','e'] 4 3).length = 5
      ∧ ¬ (splitChunks ['a','b','c','d','e'] 4 3).length = 2) := by decide

/-- C4 (amended): for every text and valid parameters the number of chunks
is `ceil(len(T) / step)` with `step = chunkSize − chunkOverlap` (i.e. `0`
for empty text, `(len(T) − 1) / step + 1` otherwise), which exceeds the
claimed `ceil((len(T) − chunkOverlap) / step)` whenever trailing
sub-overlap chunks are emitted. -/
theorem C4_chunk_count (text : List Char) (cs co : Nat) (hco : co < cs)
    (chunks : List Document)
    (hs : split_text_to_chunks_with_indices (text.length + 1) text (cs : Int) (co : Int)
      = some chunks) :
    chunks.length = numChunks text.length (cs - co) := by
  rw [split_eq_canonical text cs co hco] at hs
  cases hs
  rw [canonicalChunks]
  simp

/-- C4 witness: `"abcde"` with `(4, 3)` yields `numChunks 5 1 = 5` chunks. -/
theorem C4_chunk_count_witness :
    (canonicalChunks ['a','b','c','d','e'] 4 1).length
      = numChunks (['a','b','c','d','e'].length) (4 - 3) :=
  C4_chunk_count ['a','b','c','d','e'] 4 3 (by decide)
    (canonicalChunks ['a','b','c','d','e'] 4 1) (by decide)

/-- C5 counterexample: `"ab"` with the valid pair `(3, 2)` has
`len(T) = 2 < chunkSize = 3`, yet the chunker yields 2 chunks, not 1. -/
theorem C5_counterexample :
    (['a','b'].length < 3)
    ∧ (splitChunks ['a','b'] 3 2).length = 2
    ∧ ¬ (splitChunks ['a','b'] 3 2).length = 1 := by decide

/-- C5 (amended): for every non-empty text with
`len(T) ≤ chunkSize − chunkOverlap` (not merely `len(T) < chunkSize`) and
valid parameters, the chunker yields exactly one chunk whose text is the
whole of `T`. -/
theorem C5_single_chunk (text : List Char) (cs co : Nat) (hne : text ≠ [])
    (hlen : text.length ≤ cs - co) (hco : co < cs) (chunks : List Document)
    (hs : split_text_to_chunks_with_indices (text.length + 1) text (cs : Int) (co : Int)
      = some chunks) :
    chunks = [⟨text, some 0, text⟩] := by
  rw [split_eq_canonical text cs co hco] at hs
  cases hs
  have hl : 1 ≤ text.length := by
    have : text.length ≠ 0 := by simpa [Ne, List.length_eq_zero] using hne
    omega
  have hK : numChunks text.length (cs - co) = 1 := by
    rw [numChunks_pos _ _ hl]
    have : (text.length - 1) / (cs - co) = 0 := Nat.div_eq_of_lt (by omega)
    omega
  have hr : List.range 1 = [0] := rfl
  rw [canonicalChunks, hK, hr]
  simp only [List.map_cons, List.map_nil, chunkDoc, Nat.zero_mul, List.drop_zero]
  rw [List.take_of_length_le (by omega)]
  norm_num

/-- C5 witness: `"x"` with `(3, 1)` yields the single chunk `"x"`. -/
theorem C5_single_chunk_witness :
    canonicalChunks ['x'] 3 2 = [⟨['x'], some 0, ['x']⟩] :=
  C5_single_chunk ['x'] 3 1 (by decide) (by decide) (by decide)
    (canonicalChunks ['x'] 3 2) (by decide)

/-- C6 counterexample: `"abcde"` with the valid pair `(4, 3)` yields 5
chunks, and the chunk at position 2 — not the last — has text length 3,
strictly less than `chunkSize = 4`. -/
theorem C6_counterexample :
    (splitChunks ['a','b','c','d','e'] 4 3).length = 5
    ∧ ((splitChunks ['a','b','c','d','e'] 4 3).getD 2 ⟨[], none, []⟩).page_content.length = 3
    ∧ ¬ ((splitChunks ['a','b','c','d','e'] 4 3).getD 2 ⟨[], none, []⟩).page_content.length = 4 := by
  decide

/-- C6 (amended): every chunk's text length is at most `chunkSize`, and
chunk `i`'s text length is exactly `min(chunkSize, len(T) − i·step)` — so
every trailing chunk whose slice reaches past the end of the text is
shorter, not only the last one. -/
theorem C6_chunk_lengths (text : List Char) (cs co : Nat) (hco : co < cs)
    (chunks : List Document)
    (hs : split_text_to_chunks_with_indices (text.length + 1) text (cs : Int) (co : Int)
      = some chunks) :
    ∀ (i : Nat) (hi : i < chunks.length),
      (chunks.get ⟨i, hi⟩).page_content.length = min cs (text.length - i * (cs - co))
      ∧ (chunks.get ⟨i, hi⟩).page_content.length ≤ cs := by
  rw [split_eq_canonical text cs co hco] at hs
  cases hs
  intro i hi
  have key : ((List.range (numChunks text.length (cs - co))).map
        (chunkDoc text cs (cs - co))).get ⟨i, by simpa [canonicalChunks] using hi⟩
      = chunkDoc text cs (cs - co) i := by
    rw [List.get_map, List.get_range]
  have e : (canonicalChunks text cs (cs - co)).get ⟨i, hi⟩
      = chunkDoc text cs (cs - co) i := key
  have hlen : ((canonicalChunks text cs (cs - co)).get ⟨i, hi⟩).page_content.length
      = min cs (text.length - i * (cs - co)) := by
    rw [e, chunkDoc]
    simp [List.length_take]
  exact ⟨hlen, by omega⟩

/-- C6 witness: for `"abcde"` with `(4, 3)`, the chunk at position 2 has
length `min 4 (5 − 2·1) = 3 ≤ 4`. -/
theorem C6_chunk_lengths_witness :
    ((canonicalChunks ['a','b','c','d','e'] 4 1).get ⟨2, by decide⟩).page_content.length
      = min 4 (['a','b','c','d','e'].length - 2 * (4 - 3))
    ∧ ((canonicalChunks ['a','b','c','d','e'] 4 1).get ⟨2, by decide⟩).page_content.length ≤ 4 :=
  C6_chunk_lengths ['a','b','c','d','e'] 4 3 (by decide)
    (canonicalChunks ['a','b','c','d','e'] 4 1) (by decide) 2 (by decide)

/-! ### Lookup and neighbor collection over a full corpus -/

theorem find_seg (text : List Char) (cs step : Nat) (t : Int) :
    ∀ (n a : Nat),
      ((List.range' a n).map (chunkDoc text cs step)).find? (fun d => d.index == some t)
        = if (a : Int) ≤ t ∧ t < (a : Int) + (n : Int)
          then some (chunkDoc text cs step t.toNat) else none := by
  intro n
  induction n with
  | zero =>
    intro a
    rw [if_neg (by omega)]
    rfl
  | succ n ih =>
    intro a
    rw [List.range'_succ, List.map_cons]
    by_cases ht : (a : Int) = t
    · rw [List.find?_cons_of_pos _ (by simp [chunkDoc, ht]), if_pos (by omega)]
      subst ht
      rw [Int.toNat_natCast]
    · rw [List.find?_cons_of_neg _ (by simp [chunkDoc, ht]), ih (a + 1)]
      have hiff : (((a + 1 : Nat) : Int) ≤ t ∧ t < ((a + 1 : Nat) : Int) + (n : Int))
          ↔ ((a : Int) ≤ t ∧ t < (a : Int) + ((n + 1 : Nat) : Int)) := by
        push_cast
        omega
      rw [if_congr hiff rfl rfl]

theorem get_chunk_range (text : List Char) (cs step K : Nat) (t : Int) :
    get_chunk_by_index ((List.range K).map (chunkDoc text cs step)) t
      = if (0 : Int) ≤ t ∧ t < (K : Int)
        then some (chunkDoc text cs step t.toNat) else none := by
  rw [get_chunk_by_index, List.range_eq_range']
  have h := find_seg text cs step t K 0
  simpa using h

theorem collect_spec (text : List Char) (cs step K h : Nat) (hK : h < K) :
    ∀ n, collectNeighbors ((List.range K).map (chunkDoc text cs step)) (h : Int)
        (chunkDoc text cs step h) n
      = (List.range' (h - n) (min (K - 1) (h + n) + 1 - (h - n))).map
          (chunkDoc text cs step) := by
  intro n
  induction n with
  | zero =>
    rw [show h - 0 = h from rfl, show min (K - 1) (h + 0) = h from by omega,
      show h + 1 - h = 1 from by omega]
    rfl
  | succ n ih =>
    conv_lhs => rw [collectNeighbors, List.range_succ]
    rw [List.foldl_append, List.foldl_cons, List.foldl_nil, ← collectNeighbors, ih]
    dsimp only
    rw [get_chunk_range, get_chunk_range]
    by_cases hq : h + n + 1 < K
    · rw [if_pos ⟨by omega, by omega⟩,
        show ((h : Int) + ((n : Int) + 1)).toNat = h + (n + 1) from by omega]
      dsimp only
      by_cases hp : n + 1 ≤ h
      · rw [if_pos ⟨by omega, by omega⟩,
          show ((h : Int) - ((n : Int) + 1)).toNat = h - (n + 1) from by omega]
        dsimp only
        rw [show min (K - 1) (h + (n + 1)) + 1 - (h - (n + 1))
            = ((min (K - 1) (h + n) + 1 - (h - n)) + 1) + 1 from by omega,
          List.range'_succ,
          show h - (n + 1) + 1 = h - n from by omega,
          List.range'_concat,
          show h - n + 1 * (min (K - 1) (h + n) + 1 - (h - n)) = h + (n + 1) from by omega,
          List.map_cons, List.map_append, List.map_singleton, List.cons_append]
      · rw [if_neg (by omega)]
        dsimp only
        rw [show h - (n + 1) = h - n from by omega,
          show min (K - 1) (h + (n + 1)) + 1 - (h - n)
            = (min (K - 1) (h + n) + 1 - (h - n)) + 1 from by omega,
          List.range'_concat,
          show h - n + 1 * (min (K - 1) (h + n) + 1 - (h - n)) = h + (n + 1) from by omega,
          List.map_append, List.map_singleton]
    · rw [if_neg (by omega)]
      dsimp only
      by_cases hp : n + 1 ≤ h
      · rw [if_pos ⟨by omega, by omega⟩,
          show ((h : Int) - ((n : Int) + 1)).toNat = h - (n + 1) from by omega]
        dsimp only
        rw [show min (K - 1) (h + (n + 1)) = min (K - 1) (h + n) from by omega,
          show min (K - 1) (h + n) + 1 - (h - (n + 1))
            = (min (K - 1) (h + n) + 1 - (h - n)) + 1 from by omega,
          List.range'_succ,
          show h - (n + 1) + 1 = h - n from by omega,
          List.map_cons]
      · rw [if_neg (by omega)]
        dsimp only
        rw [show h - (n + 1) = h - n from by omega,
          show min (K - 1) (h + (n + 1)) = min (K - 1) (h + n) from by omega]

/-! ### Sorting an already index-sorted working set is the identity -/

theorem sortByIndex_of_sorted :
    ∀ l : List Document, l.Pairwise (fun x y => keyOf x ≤ keyOf y) →
      sortByIndex l = l := by
  intro l
  induction l with
  | nil => intro _; rfl
  | cons d es ih =>
    intro hp
    rw [sortByIndex, List.foldr_cons, ← sortByIndex, ih hp.of_cons]
    cases es with
    | nil => rfl
    | cons e es2 =>
      rw [insertByIdx, if_pos ((List.pairwise_cons.mp hp).1 e (List.mem_cons_self e es2))]

theorem seg_pairwise (text : List Char) (cs step a n : Nat) :
    ((List.range' a n).map (chunkDoc text cs step)).Pairwise
      (fun x y => keyOf x ≤ keyOf y) := by
  rw [List.pairwise_map]
  exact (List.pairwise_lt_range' a n).imp
    (fun hlt => by
      simp only [keyOf, chunkDoc, Option.getD_some]
      exact_mod_cast le_of_lt hlt)

/-! ### The assembled window over a full corpus -/

theorem assemble_window_span (text : List Char) (cs co h n : Nat) (hpos : 0 < co)
    (h2 : cs = 2 * co) (hK : h < numChunks text.length (cs - co)) :
    assembleWindow (canonicalChunks text cs (cs - co)) (chunkDoc text cs (cs - co) h)
      (h : Int) n (cs : Int) (co : Int)
    = (text.drop ((h - n) * (cs - co))).take
        ((min (numChunks text.length (cs - co) - 1) (h + n) - (h - n)) * (cs - co) + cs) := by
  have hco : co < cs := by omega
  rw [assembleWindow,
    show canonicalChunks text cs (cs - co)
      = (List.range (numChunks text.length (cs - co))).map (chunkDoc text cs (cs - co))
      from rfl,
    collect_spec text cs (cs - co) (numChunks text.length (cs - co)) h hK n,
    sortByIndex_of_sorted _ (seg_pairwise text cs (cs - co) _ _),
    List.map_map]
  have hab : h - n ≤ min (numChunks text.length (cs - co) - 1) (h + n) := by omega
  rw [show min (numChunks text.length (cs - co) - 1) (h + n) + 1 - (h - n)
      = (min (numChunks text.length (cs - co) - 1) (h + n) - (h - n)) + 1 from by omega,
    List.range'_succ, List.map_cons, concat_with_trim, List.foldl_map]
  have etrim : ((cs : Int) - (co : Int)) = ((co : Nat) : Int) := by
    rw [← Int.ofNat_sub (le_of_lt hco)]
    congr 1
    omega
  have hfun : (fun (acc : List Char) (m : Nat) =>
        acc ++ pySliceFrom (((fun (d : Document) => d.page_content)
          ∘ chunkDoc text cs (cs - co)) m) ((cs : Int) - (co : Int)))
      = fun (acc : List Char) (m : Nat) =>
        acc ++ ((text.drop (m * (cs - co))).take cs).drop co := by
    funext acc m
    rw [Function.comp_apply, chunkDoc, etrim, pySliceFrom_natCast]
  have heq : ((fun (d : Document) => d.page_content) ∘ chunkDoc text cs (cs - co)) (h - n)
      = (text.drop ((h - n) * (cs - co))).take cs := rfl
  have hm := merge_aux text (cs - co) co cs (by omega)
    (min (numChunks text.length (cs - co) - 1) (h + n) - (h - n)) (h - n) (h - n)
    (le_refl (h - n))
  simp only [Nat.sub_self, Nat.zero_mul, Nat.zero_add] at hm
  rw [show h - n + (min (numChunks text.length (cs - co) - 1) (h + n) - (h - n)) - (h - n)
      = min (numChunks text.length (cs - co) - 1) (h + n) - (h - n) from by omega] at hm
  rw [hfun, heq, hm]

/-! ### Claim theorems: context-window assembly and retrieval -/

/-- C7 counterexample: corpus `"abcdef"` chunked with the valid pair
`(3, 1)`; hit at index 1, one neighbor each side. Neighbors 0 and 2 both
exist, so the working set `{0, 1, 2}` is index-contiguous, yet the
assembled window is `"abce"` while the claimed span
`T[0 : 2·2 + 2] = T[0:6]` is `"abcdef"`: the merge trims
`chunkSize − chunkOverlap = 2` characters although consecutive chunks
share only `chunkOverlap = 1`. -/
theorem C7_counterexample :
    assembleWindow (splitChunks ['a','b','c','d','e','f'] 3 1)
        ((splitChunks ['a','b','c','d','e','f'] 3 1).getD 1 ⟨[], none, []⟩)
        1 1 3 1
      = ['a','b','c','e']
    ∧ ¬ (assembleWindow (splitChunks ['a','b','c','d','e','f'] 3 1)
        ((splitChunks ['a','b','c','d','e','f'] 3 1).getD 1 ⟨[], none, []⟩)
        1 1 3 1
      = pySlice ['a','b','c','d','e','f'] 0 6) := by decide

/-- C7 (amended): over a full corpus (so every fetched neighbor is
index-contiguous with the hit), and additionally assuming
`chunkSize = 2·chunkOverlap` — the only valid configuration in which the
merge's fixed trim equals the true overlap — the assembled window equals
the contiguous source span from the lowest included chunk's offset to the
highest included chunk's offset plus its text length. -/
theorem C7_contiguous_window (text : List Char) (cs co n h : Nat) (hpos : 0 < co)
    (h2 : cs = 2 * co) (chunks : List Document)
    (hs : split_text_to_chunks_with_indices (text.length + 1) text (cs : Int) (co : Int)
      = some chunks)
    (hh : h < chunks.length) (dflt : Document) :
    assembleWindow chunks (chunks.get ⟨h, hh⟩) (h : Int) n (cs : Int) (co : Int)
      = pySlice text (((h - n) * (cs - co) : Nat) : Int)
          ((min (chunks.length - 1) (h + n) * (cs - co)
            + (chunks.getD (min (chunks.length - 1) (h + n)) dflt).page_content.length
            : Nat) : Int) := by
  have hco : co < cs := by omega
  rw [split_eq_canonical text cs co hco] at hs
  cases hs
  have hlenK : (canonicalChunks text cs (cs - co)).length
      = numChunks text.length (cs - co) := by
    simp [canonicalChunks]
  have hhK : h < numChunks text.length (cs - co) := hlenK ▸ hh
  have hlpos : 1 ≤ text.length := by
    rcases Nat.eq_zero_or_pos text.length with h0 | h0
    · rw [h0, numChunks_zero] at hhK
      omega
    · exact h0
  have hget : (canonicalChunks text cs (cs - co)).get ⟨h, hh⟩
      = chunkDoc text cs (cs - co) h := by
    have key : ((List.range (numChunks text.length (cs - co))).map
          (chunkDoc text cs (cs - co))).get ⟨h, by simpa [canonicalChunks] using hh⟩
        = chunkDoc text cs (cs - co) h := by
      rw [List.get_map, List.get_range]
    exact key
  have hb : min ((canonicalChunks text cs (cs - co)).length - 1) (h + n)
      = min (numChunks text.length (cs - co) - 1) (h + n) := by
    rw [hlenK]
  have hgetD : (canonicalChunks text cs (cs - co)).getD
        (min (numChunks text.length (cs - co) - 1) (h + n)) dflt
      = chunkDoc text cs (cs - co) (min (numChunks text.length (cs - co) - 1) (h + n)) := by
    rw [List.getD_eq_getElem _ _ (by rw [hlenK]; omega)]
    simp [canonicalChunks]
  rw [hget, assemble_window_span text cs co h n hpos h2 hhK, hb, hgetD,
    show (chunkDoc text cs (cs - co)
        (min (numChunks text.length (cs - co) - 1) (h + n))).page_content.length
      = min cs (text.length
          - min (numChunks text.length (cs - co) - 1) (h + n) * (cs - co))
      from by simp [chunkDoc],
    pySlice_natCast]
  have hmul : (min (numChunks text.length (cs - co) - 1) (h + n) - (h - n)) * (cs - co)
      = min (numChunks text.length (cs - co) - 1) (h + n) * (cs - co)
        - (h - n) * (cs - co) := Nat.sub_mul _ _ _
  have hle : (h - n) * (cs - co)
      ≤ min (numChunks text.length (cs - co) - 1) (h + n) * (cs - co) :=
    Nat.mul_le_mul_right _ (by omega)
  have hblt2 : min (numChunks text.length (cs - co) - 1) (h + n) * (cs - co)
      < text.length := by
    have h1 : min (numChunks text.length (cs - co) - 1) (h + n)
        ≤ numChunks text.length (cs - co) - 1 := Nat.min_le_left _ _
    have h2 : (numChunks text.length (cs - co) - 1) * (cs - co) < text.length := by
      rw [numChunks_pos _ _ hlpos, Nat.add_sub_cancel]
      have h3 := Nat.div_mul_le_self (text.length - 1) (cs - co)
      omega
    calc min (numChunks text.length (cs - co) - 1) (h + n) * (cs - co)
        ≤ (numChunks text.length (cs - co) - 1) * (cs - co) :=
          Nat.mul_le_mul_right _ h1
      _ < text.length := h2
  rcases le_or_lt
      (min (numChunks text.length (cs - co) - 1) (h + n) * (cs - co) + cs)
      text.length with hcase | hcase
  · rw [show min cs (text.length
        - min (numChunks text.length (cs - co) - 1) (h + n) * (cs - co)) = cs
      from by omega]
    congr 1
    omega
  · rw [show min cs (text.length
        - min (numChunks text.length (cs - co) - 1) (h + n) * (cs - co))
      = text.length - min (numChunks text.length (cs - co) - 1) (h + n) * (cs - co)
      from by omega]
    rw [List.take_of_length_le (by rw [List.length_drop]; omega),
      List.take_of_length_le (by rw [List.length_drop]; omega)]

/-- C7 witness: corpus `"abcdef"` chunked with `(2, 1)` (so
`chunkSize = 2·chunkOverlap`); hit at index 2 with one neighbor each side
assembles to the source span covering indices 1..3. -/
theorem C7_contiguous_window_witness :
    assembleWindow (canonicalChunks ['a','b','c','d','e','f'] 2 1)
        ((canonicalChunks ['a','b','c','d','e','f'] 2 1).get ⟨2, by decide⟩)
        ((2 : Nat) : Int) 1 ((2 : Nat) : Int) ((1 : Nat) : Int)
      = pySlice ['a','b','c','d','e','f'] (((2 - 1) * (2 - 1) : Nat) : Int)
          ((min ((canonicalChunks ['a','b','c','d','e','f'] 2 1).length - 1) (2 + 1) * (2 - 1)
            + ((canonicalChunks ['a','b','c','d','e','f'] 2 1).getD
                (min ((canonicalChunks ['a','b','c','d','e','f'] 2 1).length - 1) (2 + 1))
                ⟨[], none, []⟩).page_content.length
            : Nat) : Int) :=
  C7_contiguous_window ['a','b','c','d','e','f'] 2 1 1 2 (by decide) (by decide)
    (canonicalChunks ['a','b','c','d','e','f'] 2 1) (by decide) (by decide)
    ⟨[], none, []⟩

/-- C8: assembling with zero neighbors returns exactly the hit chunk's
text, for every store, every claimed index and every `chunkSize` /
`chunkOverlap` argument: the working set is just the hit, so the merge
loop body never runs. -/
theorem C8_zero_neighbors (store : List Document) (hit : Document)
    (idx cs co : Int) :
    assembleWindow store hit idx 0 cs co = hit.page_content := rfl

theorem retrieve_eq_filter_map (store hits : List Document) (n : Nat) (cs co : Int) :
    retrieve_with_context_overlap store hits n cs co
      = (hits.filter (fun c => c.index.isSome)).map
          (fun c => assembleWindow store c (c.index.getD 0) n cs co) := by
  induction hits with
  | nil => rfl
  | cons c t ih =>
    cases hidx : c.index with
    | none =>
      rw [retrieve_with_context_overlap, List.filterMap_cons, hidx]
      dsimp only
      rw [← retrieve_with_context_overlap, ih, List.filter_cons]
      simp [hidx]
    | some i =>
      rw [retrieve_with_context_overlap, List.filterMap_cons, hidx]
      dsimp only
      rw [← retrieve_with_context_overlap, ih, List.filter_cons]
      simp [hidx]

/-- C9: the retrieval output is exactly one assembled window per hit with
a defined metadata index, in the hits' relative order; hits lacking an
index are dropped silently, the output length equals the number of
indexed hits, and is at most `k` whenever the search returned at most `k`
hits. -/
theorem C9_retrieve_order_and_skip (store hits : List Document) (n : Nat)
    (cs co : Int) :
    retrieve_with_context_overlap store hits n cs co
        = (hits.filter (fun c => c.index.isSome)).map
            (fun c => assembleWindow store c (c.index.getD 0) n cs co)
      ∧ (retrieve_with_context_overlap store hits n cs co).length
          = (hits.filter (fun c => c.index.isSome)).length
      ∧ ∀ k : Nat, hits.length ≤ k →
          (retrieve_with_context_overlap store hits n cs co).length ≤ k := by
  refine ⟨retrieve_eq_filter_map store hits n cs co, ?_, ?_⟩
  · rw [retrieve_eq_filter_map, List.length_map]
  · intro k hk
    rw [retrieve_eq_filter_map, List.length_map]
    exact le_trans (List.length_filter_le _ _) hk

/-- C9 witness: two hits, one lacking an index, against a 3-chunk corpus:
the output length is at most `k = 2`. -/
theorem C9_retrieve_order_and_skip_witness :
    (retrieve_with_context_overlap (canonicalChunks ['a','b','c'] 2 1)
      [⟨['x'], none, []⟩, ⟨['b','c'], some 1, []⟩] 1 2 1).length ≤ 2 :=
  (C9_retrieve_order_and_skip (canonicalChunks ['a','b','c'] 2 1)
    [⟨['x'], none, []⟩, ⟨['b','c'], some 1, []⟩] 1 2 1).2.2 2 (by decide)

/-- C10: the chunk-by-index lookup returns `None` exactly when no stored
document's metadata index equals the target; any returned document has
the target index; otherwise — when some stored document does carry the
target index — the lookup returns such a document; and over a
chunker-produced store (indices `0 .. N−1`) every negative target and
every target `≥ N` yields `None`. Totality of the embedding reflects
that the scan raises nothing. -/
theorem C10_lookup (store : List Document) (t : Int) :
    ((∀ d ∈ store, d.index ≠ some t) → get_chunk_by_index store t = none)
    ∧ (∀ d, get_chunk_by_index store t = some d → d.index = some t)
    ∧ ((∃ d ∈ store, d.index = some t) →
        ∃ d, get_chunk_by_index store t = some d ∧ d.index = some t)
    ∧ (∀ (text : List Char) (cs co : Nat), co < cs →
        split_text_to_chunks_with_indices (text.length + 1) text (cs : Int) (co : Int)
          = some store →
        (t < 0 ∨ (store.length : Int) ≤ t) → get_chunk_by_index store t = none) := by
  refine ⟨?_, ?_, ?_, ?_⟩
  · intro hall
    rw [get_chunk_by_index, List.find?_eq_none]
    intro d hd
    simp only [beq_iff_eq]
    exact hall d hd
  · intro d hfind
    have h := List.find?_some hfind
    simpa using h
  · rintro ⟨d, hd, hidx⟩
    cases hfind : get_chunk_by_index store t with
    | none =>
      rw [get_chunk_by_index, List.find?_eq_none] at hfind
      have h := hfind d hd
      simp only [beq_iff_eq] at h
      exact absurd hidx h
    | some e =>
      refine ⟨e, rfl, ?_⟩
      have h := List.find?_some hfind
      simpa using h
  · intro text cs co hco hs hrange
    rw [split_eq_canonical text cs co hco] at hs
    cases hs
    have hlenK : (canonicalChunks text cs (cs - co)).length
        = numChunks text.length (cs - co) := by
      simp [canonicalChunks]
    rw [show canonicalChunks text cs (cs - co)
        = (List.range (numChunks text.length (cs - co))).map (chunkDoc text cs (cs - co))
        from rfl,
      get_chunk_range, if_neg (by omega)]

/-- C10 witness: in the 3-chunk corpus of `"abc"` chunked with `(2, 1)`,
looking up the stored index 1 returns a chunk carrying index 1, and
looking up index 7 returns `None`. -/
theorem C10_lookup_witness :
    (∃ d, get_chunk_by_index (canonicalChunks ['a','b','c'] 2 1) 1 = some d
        ∧ d.index = some 1)
    ∧ get_chunk_by_index (canonicalChunks ['a','b','c'] 2 1) 7 = none :=
  ⟨(C10_lookup (canonicalChunks ['a','b','c'] 2 1) 1).2.2.1
      ⟨chunkDoc ['a','b','c'] 2 1 1, by decide, by decide⟩,
   (C10_lookup (canonicalChunks ['a','b','c'] 2 1) 7).2.2.2 ['a','b','c'] 2 1
      (by decide) (by decide) (by decide)⟩

